import Mathlib

/-!
Shallow embedding of the `clean` subsystem of nh (src/clean.rs): the
generation retention planner, the gcroot scanner, profile discovery and the
execution phase, together with proofs of the spec's testable properties.

Filesystem interaction is represented by explicit inputs: a directory
listing is a list of entry results, a symlink target is a string, a
modification time is an integer timestamp (`SystemTime` at nanosecond
resolution), and `now.duration_since t` succeeds exactly when `t ≤ now`,
returning the non-negative difference.
-/

/-- One numbered generation link, mirroring `struct Generation` in
src/clean.rs: `number: u32`, `last_modified: SystemTime`, `path: PathBuf`.
Timestamps are integers; paths are strings. -/
structure Generation where
  number : Nat
  last_modified : Int
  path : String
deriving Repr, DecidableEq

/-- Lexicographic order on `Generation` derived by `#[derive(PartialOrd, Ord)]`
on fields in declaration order (number, then last_modified, then path),
which is the key order of the `BTreeMap` used for `GenerationsTagged`. -/
def genLt (a b : Generation) : Prop :=
  a.number < b.number ∨
    (a.number = b.number ∧
      (a.last_modified < b.last_modified ∨
        (a.last_modified = b.last_modified ∧ a.path < b.path)))

instance (a b : Generation) : Decidable (genLt a b) := by
  unfold genLt; infer_instance

/-- Ordered insertion with value overwrite on an equal key: the model of
`BTreeMap::insert` on an association list kept sorted by `genLt`. -/
def btInsert (g : Generation) (v : Bool) : List (Generation × Bool) → List (Generation × Bool)
  | [] => [(g, v)]
  | p :: rest =>
    if genLt g p.1 then (g, v) :: p :: rest
    else if genLt p.1 g then p :: btInsert g v rest
    else (g, v) :: rest

/-- Does the first character list occur as a prefix of the second? -/
def startsList : List Char → List Char → Bool
  | [], _ => true
  | _ :: _, [] => false
  | a :: as, b :: bs => a == b && startsList as bs

/-- Strip the first list as a prefix from the second, or fail. -/
def dropPre : List Char → List Char → Option (List Char)
  | [], l => some l
  | _ :: _, [] => none
  | a :: as, b :: bs => if a == b then dropPre as bs else none

/-- Split off the maximal leading run of ASCII digits. -/
def splitDigits : List Char → List Char × List Char
  | [] => ([], [])
  | c :: rest =>
    if c.isDigit then
      let p := splitDigits rest
      (c :: p.1, p.2)
    else ([], c :: rest)

/-- Decimal value of a digit list (the model of `str::parse`; the u32
overflow panic of the source is not modelled, no claim touches it). -/
def digitsToNatAux (acc : Nat) : List Char → Nat
  | [] => acc
  | c :: rest => digitsToNatAux (acc * 10 + (c.toNat - 48)) rest

def digitsToNat (l : List Char) : Nat := digitsToNatAux 0 l

/-- Matching of an entry name against the generation regex
`^<profile-name>-(\d+)-link` built in `cleanable_generations` (note: no
trailing anchor), returning the captured number. The profile name is
treated literally. A greedy `(\d+)` followed by `-link` matches exactly
when the maximal digit run after the dashed name is non-empty and is
followed by `-link`: a shorter backtracked run would have to be followed
by a digit, never by a dash. -/
def matchGenName (profileName entryName : String) : Option Nat :=
  match dropPre (profileName.toList ++ [Char.ofNat 45]) entryName.toList with
  | none => none
  | some rest =>
    match splitDigits rest with
    | ([], _) => none
    | (ds, r) =>
      if startsList ("-link".toList) r then some (digitsToNat ds) else none

instance {α β : Type} [DecidableEq α] [DecidableEq β] : DecidableEq (Except α β) := fun a b =>
  match a, b with
  | .error x, .error y =>
    if h : x = y then .isTrue (by subst h; rfl)
    else .isFalse (by intro hc; cases hc; exact h rfl)
  | .error _, .ok _ => .isFalse (by intro hc; cases hc)
  | .ok _, .error _ => .isFalse (by intro hc; cases hc)
  | .ok x, .ok y =>
    if h : x = y then .isTrue (by subst h; rfl)
    else .isFalse (by intro hc; cases hc; exact h rfl)

/-- One readable directory entry during generation enumeration: its file
name and the result of `symlink_metadata().modified()`. -/
structure DirEntryInfo where
  name : String
  mtime : Except String Int
deriving Repr, DecidableEq

/-- The discovery loop of `cleanable_generations` (src/clean.rs lines
306-333): walk the parent directory's entries in order; a per-entry read
error is propagated by `entry?` (fatal); an entry whose name does not
match the regex is silently skipped; a matching entry whose modification
time cannot be read is fatal via `?`; a matching readable entry is
inserted into the `BTreeMap` with flag `true` (to be removed). -/
def discoverGens (profileName : String) (entries : List (Except String DirEntryInfo))
    (acc : List (Generation × Bool)) : Except String (List (Generation × Bool)) :=
  match entries with
  | [] => .ok acc
  | .error e :: _ => .error e
  | .ok entry :: rest =>
    match matchGenName profileName entry.name with
    | none => discoverGens profileName rest acc
    | some n =>
      match entry.mtime with
      | .error e => .error e
      | .ok t =>
        discoverGens profileName rest
          (btInsert { number := n, last_modified := t, path := entry.name } true acc)

/-- The age-rule adjustment of one tagged generation (src/clean.rs lines
335-346): `now.duration_since(last_modified)` fails when the time is in
the future (flag left unchanged, warning only); otherwise the flag is
cleared when the age is at most `keep_since`. -/
def ageAdjust (now ks : Int) (p : Generation × Bool) : Generation × Bool :=
  if now - p.1.last_modified < 0 then p
  else if now - p.1.last_modified ≤ ks then (p.1, false)
  else p

/-- The age-rule pass over the whole map. -/
def agePass (now ks : Int) (l : List (Generation × Bool)) : List (Generation × Bool) :=
  l.map (ageAdjust now ks)

/-- The count-rule pass (src/clean.rs lines 348-350):
`result.iter_mut().rev().take(keep)` clears the flag of the `keep` last
entries in key order, i.e. the `keep` highest keys. -/
def countPass (keep : Nat) (l : List (Generation × Bool)) : List (Generation × Bool) :=
  l.take (l.length - keep) ++ (l.drop (l.length - keep)).map (fun p => (p.1, false))

/-- `cleanable_generations` (src/clean.rs lines 291-354): the profile's
parent directory listing is an input (`Except`: an unreadable parent
directory is fatal); discovery, then the age pass, then the count pass.
`keep : u32` is a natural number, `keep_since` a non-negative duration. -/
def cleanable_generations (profileName : String)
    (parentDir : Except String (List (Except String DirEntryInfo)))
    (keep : Nat) (keep_since : Nat) (now : Int) :
    Except String (List (Generation × Bool)) :=
  match parentDir with
  | .error e => .error e
  | .ok entries =>
    match discoverGens profileName entries [] with
    | .error e => .error e
    | .ok m => .ok (countPass keep (agePass now (keep_since : Int) m))

/-- Outcome of the `faccessat(F_OK | W_OK, AT_SYMLINK_NOFOLLOW)` probe on a
gcroot target: success, `EACCES`/`ENOENT` (silently skipped), or any other
errno (fatal `bail!`). -/
inductive ProbeResult
  | ok
  | denied
  | otherErr (msg : String)
deriving Repr, DecidableEq

/-- One readable entry of `/nix/var/nix/gcroots/auto`: the resolved symlink
target, the probe outcome, and the result of reading the target's own
modification time (`symlink_metadata().modified()`, fatal on error). -/
structure GcRootCandidate where
  dst : String
  probe : ProbeResult
  mtime : Except String Int
deriving Repr, DecidableEq

/-- Occurrence of the pattern of a slash, any one character, then
`direnv/` anywhere in the list: the regex `.*/.direnv/.*` with its
unescaped dot. -/
def hasDirenvPat : List Char → Bool
  | [] => false
  | c :: rest =>
    (c == '/' &&
      (match rest with
       | [] => false
       | _ :: rest2 => startsList ("direnv/".toList) rest2)) || hasDirenvPat rest

/-- Does `pat` occur as a contiguous sublist? -/
def containsList (pat : List Char) : List Char → Bool
  | [] => startsList pat []
  | c :: rest => startsList pat (c :: rest) || containsList pat rest

/-- The gcroot allow-list (src/clean.rs line 100): target matches
`.*/.direnv/.*` or `.*result.*`. -/
def matchesGcrootPattern (dst : String) : Bool :=
  hasDirenvPat dst.toList || containsList ("result".toList) dst.toList

/-- `HashMap::insert` on an association list: overwrite the value at an
existing key, else append a fresh entry. -/
def hmInsert (k : String) (v : Bool) : List (String × Bool) → List (String × Bool)
  | [] => [(k, v)]
  | p :: rest => if p.1 = k then (k, v) :: rest else p :: hmInsert k v rest

/-- Key lookup in the association-list map. -/
def hmFind (k : String) : List (String × Bool) → Option Bool
  | [] => none
  | p :: rest => if p.1 = k then some p.2 else hmFind k rest

/-- The body of one iteration of the gcroot scanning loop
(src/clean.rs lines 106-171) for one readable candidate: a target matching
no allow-list pattern is skipped; the probe's `EACCES`/`ENOENT` skips the
candidate, any other errno is a fatal `bail!`; a metadata read error is
fatal; a modification time in the future skips the candidate with a
warning; else the target is inserted with flag false (keep) when its age
is at most `keep_since`, true (remove) otherwise. -/
def gcStep (now ks : Int) (c : GcRootCandidate) (acc : List (String × Bool)) :
    Except String (List (String × Bool)) :=
  if matchesGcrootPattern c.dst = false then .ok acc
  else
    match c.probe with
    | .denied => .ok acc
    | .otherErr msg => .error msg
    | .ok =>
      match c.mtime with
      | .error e => .error e
      | .ok t =>
        if now - t < 0 then .ok acc
        else if now - t ≤ ks then .ok (hmInsert c.dst false acc)
        else .ok (hmInsert c.dst true acc)

/-- The gcroot scanning loop over the registry directory's entries:
per-entry read or readlink errors are fatal via `?`, and any fatal error
from an iteration aborts the whole scan. -/
def scanGcroots (now ks : Int) : List (Except String GcRootCandidate) →
    List (String × Bool) → Except String (List (String × Bool))
  | [], acc => .ok acc
  | .error e :: _, _ => .error e
  | .ok c :: rest, acc => (gcStep now ks c acc).bind (scanGcroots now ks rest)

/-- One entry seen by `profiles_in_dir`: the entry's own file name, and
the result of `read_link`: `none` when the entry is not a readable
symlink (the `if let Ok` falls through), `some none` when the target path
has no final file-name component (`file_name()` is `None`, so the
`expect` panics), `some (some f)` for a target with file name `f`. -/
structure ProfDirEntry where
  name : String
  linkDst : Option (Option String)
deriving Repr, DecidableEq

/-- After stripping the digit run: the next character must be a dash
(working on the reversed name). -/
def dashAfterDigits : List Char → Bool
  | [] => false
  | c :: rest => if c.isDigit then dashAfterDigits rest else c == '-'

/-- A non-empty digit run followed by a dash (reversed name). -/
def digitsThenDash : List Char → Bool
  | [] => false
  | c :: _rest => c.isDigit && dashAfterDigits (c :: _rest).tail

/-- Matching against `^(.*)-(\d+)-link$` (src/clean.rs line 269): the name
ends in `-link`, preceded by a non-empty digit run, preceded by a dash
(the leading `(.*)` may be empty). Checked on the reversed name. -/
def genLinkNameMatch (name : String) : Bool :=
  match name.toList.reverse with
  | 'k' :: 'n' :: 'i' :: 'l' :: '-' :: rest => digitsThenDash rest
  | _ => false

/-- The entry loop of `profiles_in_dir` (src/clean.rs lines 256-285).
`none` models the `expect` panic on a symlink target without a file-name
component; otherwise the list of entry paths whose target matches the
generation pattern. Per-entry read errors are skipped with a warning. -/
def profilesGo : List (Except String ProfDirEntry) → Option (List String)
  | [] => some []
  | .error _ :: rest => profilesGo rest
  | .ok ⟨_, none⟩ :: rest => profilesGo rest
  | .ok ⟨_, some none⟩ :: _ => none
  | .ok ⟨nm, some (some fname)⟩ :: rest =>
    if genLinkNameMatch fname then (profilesGo rest).map (fun l => nm :: l)
    else profilesGo rest

/-- `profiles_in_dir` (src/clean.rs lines 252-288): an unreadable
directory is skipped with a warning, yielding the empty list. -/
def profiles_in_dir (dir : Except String (List (Except String ProfDirEntry))) :
    Option (List String) :=
  match dir with
  | .error _ => some []
  | .ok entries => profilesGo entries

/-- Observable effects of the execution phase. -/
inductive CleanAction
  | promptShown
  | removeAttempt (path : String) (ok : Bool)
  | runCollector (dry : Bool) (maxBound : Option String)
  | runOptimise
deriving Repr, DecidableEq

/-- The flags of `CleanArgs` consumed by `CleanMode::run`. `maxBound` and
`optimise` are declared in crates/nh-clean/src/args.rs (`--max`, passed to
the collector, and `--optimise`, a store-compaction step after collection);
the run code consuming them is modelled from the spec, see `executePhase`. -/
structure CleanOpts where
  keep : Nat
  keep_since : Nat
  dry : Bool
  ask : Bool
  nogc : Bool
  nogcroots : Bool
  maxBound : Option String
  optimise : Bool

/-- `remove_path_nofail` (src/clean.rs lines 356-361): one removal attempt
whose failure is only logged, never propagated. -/
def remove_path_nofail (fsFails : String → Bool) (path : String) : CleanAction :=
  .removeAttempt path (!fsFails path)

/-- Gcroot targets flagged for removal, in map order. -/
def gcrootDeletions (gcroots : List (String × Bool)) : List String :=
  (gcroots.filter (fun p => p.2)).map (fun p => p.1)

/-- Generation paths flagged for removal: per profile, generations in
reversed (descending-key) order, as in the execution loop. -/
def generationDeletions (profiles : List (String × List (Generation × Bool))) : List String :=
  (profiles.map (fun pr => (pr.2.reverse.filter (fun q => q.2)).map (fun q => q.1.path))).flatten

/-- All deletion targets in execution order: gcroots first, then
generations. -/
def deletionTargets (gcroots : List (String × Bool))
    (profiles : List (String × List (Generation × Bool))) : List String :=
  gcrootDeletions gcroots ++ generationDeletions profiles

/-- The post-planning part of `CleanMode::run` (src/clean.rs lines
215-247): the confirmation gate (`if args.ask`, shown regardless of the
dry flag; a negative answer is a fatal bail), then, unless dry, the
best-effort deletions, then, unless `nogc`, the collector invocation
carrying the dry flag (and, modelled from the spec: the `--max` bound and,
afterwards, the optional store-compaction step). The collector's failure
is fatal; individual deletion failures never are. -/
def executePhase (opts : CleanOpts) (gcroots : List (String × Bool))
    (profiles : List (String × List (Generation × Bool)))
    (answer : Bool) (fsFails : String → Bool) (collectorOk : Bool) :
    List CleanAction × Except String Unit :=
  let promptActs : List CleanAction := if opts.ask then [.promptShown] else []
  if opts.ask && !answer then
    (promptActs, .error "User rejected the cleanup plan")
  else
    let delActs : List CleanAction :=
      if opts.dry then []
      else (deletionTargets gcroots profiles).map (remove_path_nofail fsFails)
    if opts.nogc then
      (promptActs ++ delActs ++ (if opts.optimise then [CleanAction.runOptimise] else []), .ok ())
    else if collectorOk then
      (promptActs ++ delActs ++ [CleanAction.runCollector opts.dry opts.maxBound]
        ++ (if opts.optimise then [CleanAction.runOptimise] else []), .ok ())
    else
      (promptActs ++ delActs ++ [CleanAction.runCollector opts.dry opts.maxBound],
        .error "Performing garbage collection on the nix store failed")

/-- The combined plan: gcroot map and per-profile generation maps. -/
structure Plan where
  gcroots : List (String × Bool)
  profiles : List (String × List (Generation × Bool))
deriving DecidableEq

/-- Result of a whole run: the plan once planning succeeded, the trace of
observable actions, and the overall outcome. -/
structure RunResult where
  plan : Option Plan
  trace : List CleanAction
  outcome : Except String Unit

/-- The per-profile planning loop (src/clean.rs lines 91-97): errors are
raised as they come. -/
def planProfiles (keep ks : Nat) (now : Int) :
    List (String × Except String (List (Except String DirEntryInfo))) →
    Except String (List (String × List (Generation × Bool)))
  | [] => .ok []
  | pr :: rest =>
    match cleanable_generations pr.1 pr.2 keep ks now with
    | .error e => .error e
    | .ok m =>
      match planProfiles keep ks now rest with
      | .error e => .error e
      | .ok ps => .ok ((pr.1, m) :: ps)

/-- `CleanMode::run` after mode selection (src/clean.rs lines 90-247):
plan all profiles (fatal on error), scan gcroots unless the mode is a
single-profile clean or `nogcroots` is set, then run the execution phase. -/
def runClean (opts : CleanOpts) (isProfileClean : Bool)
    (profileDirs : List (String × Except String (List (Except String DirEntryInfo))))
    (gcrootEntries : List (Except String GcRootCandidate)) (now : Int)
    (answer : Bool) (fsFails : String → Bool) (collectorOk : Bool) : RunResult :=
  match planProfiles opts.keep opts.keep_since now profileDirs with
  | .error e => ⟨none, [], .error e⟩
  | .ok pt =>
    match (if !isProfileClean && !opts.nogcroots then
             scanGcroots now (opts.keep_since : Int) gcrootEntries []
           else .ok []) with
    | .error e => ⟨none, [], .error e⟩
    | .ok gt =>
      let pr := executePhase opts gt pt answer fsFails collectorOk
      ⟨some ⟨gt, pt⟩, pr.1, pr.2⟩

/-- The age-rule condition of spec rule 3 in section 4.2: the age is
non-negative and at most `keep_since`. -/
def ageCond (now ks : Int) (g : Generation) : Prop :=
  0 ≤ now - g.last_modified ∧ now - g.last_modified ≤ ks

instance (now ks : Int) (g : Generation) : Decidable (ageCond now ks g) := by
  unfold ageCond; infer_instance

/-- Key order on tagged pairs. -/
def pairLt (p q : Generation × Bool) : Prop := genLt p.1 q.1

/-- A gcroot candidate passes the scan filters: its target matches the
allow-list, the accessibility probe succeeds, and its age is computable
(modification time readable and not in the future). -/
def gcPasses (now : Int) (c : GcRootCandidate) : Prop :=
  matchesGcrootPattern c.dst = true ∧ c.probe = ProbeResult.ok ∧
    ∃ t, c.mtime = Except.ok t ∧ 0 ≤ now - t

/-- Replace only the dry flag of an option record. -/
def setDry (o : CleanOpts) (d : Bool) : CleanOpts :=
  ⟨o.keep, o.keep_since, d, o.ask, o.nogc, o.nogcroots, o.maxBound, o.optimise⟩

/-- Extract the path of a removal attempt from a trace action. -/
def removeTarget : CleanAction → Option String
  | .removeAttempt p _ => some p
  | _ => none

theorem genLt_trans {a b c : Generation} (h1 : genLt a b) (h2 : genLt b c) : genLt a c := by
  unfold genLt at *
  rcases h1 with h1 | ⟨e1, h1 | ⟨f1, h1⟩⟩ <;> rcases h2 with h2 | ⟨e2, h2 | ⟨f2, h2⟩⟩ <;>
    first
      | (left; omega)
      | (right; exact ⟨by omega, Or.inl (by omega)⟩)
      | (right; exact ⟨by omega, Or.inr ⟨by omega, lt_trans h1 h2⟩⟩)

theorem genLt_total {a b : Generation} (h1 : ¬genLt a b) (h2 : ¬genLt b a) : a = b := by
  rcases lt_trichotomy a.number b.number with h | h | h
  · exact absurd (Or.inl h) h1
  · rcases lt_trichotomy a.last_modified b.last_modified with hl | hl | hl
    · exact absurd (Or.inr ⟨h, Or.inl hl⟩) h1
    · rcases lt_trichotomy a.path b.path with hp | hp | hp
      · exact absurd (Or.inr ⟨h, Or.inr ⟨hl, hp⟩⟩) h1
      · cases a; cases b; simp_all
      · exact absurd (Or.inr ⟨h.symm, Or.inr ⟨hl.symm, hp⟩⟩) h2
    · exact absurd (Or.inr ⟨h.symm, Or.inl hl⟩) h2
  · exact absurd (Or.inl h) h2

theorem btInsert_mem {g : Generation} {v : Bool} {l : List (Generation × Bool)}
    {p : Generation × Bool} (h : p ∈ btInsert g v l) : p = (g, v) ∨ p ∈ l := by
  induction l with
  | nil => simpa [btInsert] using h
  | cons q rest ih =>
    by_cases h1 : genLt g q.1
    · rw [btInsert, if_pos h1] at h
      rcases List.mem_cons.mp h with h | h
      · exact .inl h
      · exact .inr h
    · by_cases h2 : genLt q.1 g
      · rw [btInsert, if_neg h1, if_pos h2] at h
        rcases List.mem_cons.mp h with h | h
        · exact .inr (by simp [h])
        · rcases ih h with hx | hx
          · exact .inl hx
          · exact .inr (List.mem_cons_of_mem _ hx)
      · rw [btInsert, if_neg h1, if_neg h2] at h
        rcases List.mem_cons.mp h with h | h
        · exact .inl h
        · exact .inr (List.mem_cons_of_mem _ h)

theorem btInsert_sorted {g : Generation} {v : Bool} {l : List (Generation × Bool)}
    (hs : l.Pairwise pairLt) : (btInsert g v l).Pairwise pairLt := by
  induction l with
  | nil => simp [btInsert]
  | cons q rest ih =>
    have hq : ∀ p ∈ rest, pairLt q p := (List.pairwise_cons.mp hs).1
    have hrest := (List.pairwise_cons.mp hs).2
    by_cases h1 : genLt g q.1
    · rw [btInsert, if_pos h1]
      refine List.pairwise_cons.mpr ⟨?_, hs⟩
      intro p hp
      rcases List.mem_cons.mp hp with h | h
      · subst h; exact h1
      · exact genLt_trans h1 (hq p h)
    · by_cases h2 : genLt q.1 g
      · rw [btInsert, if_neg h1, if_pos h2]
        refine List.pairwise_cons.mpr ⟨?_, ih hrest⟩
        intro p hp
        rcases btInsert_mem hp with h | h
        · subst h; exact h2
        · exact hq p h
      · rw [btInsert, if_neg h1, if_neg h2]
        refine List.pairwise_cons.mpr ⟨?_, hrest⟩
        intro p hp
        have hgq : g = q.1 := genLt_total h1 h2
        have hx := hq p hp
        simpa [pairLt, hgq] using hx

theorem btInsert_true {g : Generation} {l : List (Generation × Bool)}
    (hl : ∀ p ∈ l, p.2 = true) : ∀ p ∈ btInsert g true l, p.2 = true := by
  intro p hp
  rcases btInsert_mem hp with h | h
  · simp [h]
  · exact hl p h

theorem discoverGens_true {pn : String} {es : List (Except String DirEntryInfo)}
    {acc m : List (Generation × Bool)} (hacc : ∀ p ∈ acc, p.2 = true)
    (h : discoverGens pn es acc = .ok m) : ∀ p ∈ m, p.2 = true := by
  induction es generalizing acc with
  | nil =>
    obtain rfl : acc = m := by simpa [discoverGens] using h
    exact hacc
  | cons e rest ih =>
    match e with
    | .error msg => simp [discoverGens] at h
    | .ok entry =>
      rw [discoverGens] at h
      rcases hm : matchGenName pn entry.name with - | n
      · rw [hm] at h; exact ih hacc h
      · rw [hm] at h
        rcases ht : entry.mtime with msg | t
        · rw [ht] at h; simp at h
        · rw [ht] at h
          exact ih (btInsert_true hacc) h

theorem discoverGens_sorted {pn : String} {es : List (Except String DirEntryInfo)}
    {acc m : List (Generation × Bool)} (hacc : acc.Pairwise pairLt)
    (h : discoverGens pn es acc = .ok m) : m.Pairwise pairLt := by
  induction es generalizing acc with
  | nil =>
    obtain rfl : acc = m := by simpa [discoverGens] using h
    exact hacc
  | cons e rest ih =>
    match e with
    | .error msg => simp [discoverGens] at h
    | .ok entry =>
      rw [discoverGens] at h
      rcases hm : matchGenName pn entry.name with - | n
      · rw [hm] at h; exact ih hacc h
      · rw [hm] at h
        rcases ht : entry.mtime with msg | t
        · rw [ht] at h; simp at h
        · rw [ht] at h
          exact ih (btInsert_sorted hacc) h

theorem discoverGens_mem_source {pn : String} {es : List (Except String DirEntryInfo)}
    {acc m : List (Generation × Bool)} {p : Generation × Bool}
    (h : discoverGens pn es acc = .ok m) (hp : p ∈ m) :
    p ∈ acc ∨ ∃ e t, Except.ok e ∈ es ∧ matchGenName pn e.name = some p.1.number ∧
      e.mtime = Except.ok t ∧ p.1.last_modified = t ∧ p.1.path = e.name := by
  induction es generalizing acc with
  | nil =>
    obtain rfl : acc = m := by simpa [discoverGens] using h
    exact .inl hp
  | cons e rest ih =>
    match e with
    | .error msg => simp [discoverGens] at h
    | .ok entry =>
      rw [discoverGens] at h
      rcases hm : matchGenName pn entry.name with - | n
      · rw [hm] at h
        rcases ih h with hx | ⟨e', t, he, h1, h2, h3, h4⟩
        · exact .inl hx
        · exact .inr ⟨e', t, List.mem_cons_of_mem _ he, h1, h2, h3, h4⟩
      · rw [hm] at h
        rcases ht : entry.mtime with msg | t
        · rw [ht] at h; simp at h
        · rw [ht] at h
          rcases ih h with hx | ⟨e', t', he, h1, h2, h3, h4⟩
          · rcases btInsert_mem hx with hx' | hx'
            · refine .inr ⟨entry, t, List.mem_cons_self _ _, ?_, ht, ?_, ?_⟩ <;> simp [hx', hm]
            · exact .inl hx'
          · exact .inr ⟨e', t', List.mem_cons_of_mem _ he, h1, h2, h3, h4⟩

theorem discoverGens_entry_error {pn : String} {es : List (Except String DirEntryInfo)}
    {acc : List (Generation × Bool)} {msg : String} (he : Except.error msg ∈ es) :
    ∀ m, discoverGens pn es acc ≠ .ok m := by
  induction es generalizing acc with
  | nil => simp at he
  | cons e rest ih =>
    intro m h
    match e with
    | .error msg' => simp [discoverGens] at h
    | .ok entry =>
      have he' : Except.error msg ∈ rest := by
        rcases List.mem_cons.mp he with hx | hx
        · cases hx
        · exact hx
      rw [discoverGens] at h
      rcases hm : matchGenName pn entry.name with - | n
      · rw [hm] at h; exact ih he' m h
      · rw [hm] at h
        rcases ht : entry.mtime with msg' | t
        · rw [ht] at h; simp at h
        · rw [ht] at h; exact ih he' m h

theorem discoverGens_mtime_error {pn : String} {es : List (Except String DirEntryInfo)}
    {acc : List (Generation × Bool)} {entry : DirEntryInfo} {n : Nat} {msg : String}
    (he : Except.ok entry ∈ es) (hmn : matchGenName pn entry.name = some n)
    (hmt : entry.mtime = .error msg) :
    ∀ m, discoverGens pn es acc ≠ .ok m := by
  induction es generalizing acc with
  | nil => simp at he
  | cons e rest ih =>
    intro m h
    match e with
    | .error msg' => simp [discoverGens] at h
    | .ok entry' =>
      rcases List.mem_cons.mp he with hx | hx
      · cases hx
        rw [discoverGens, hmn, hmt] at h
        simp at h
      · rw [discoverGens] at h
        rcases hm : matchGenName pn entry'.name with - | n'
        · rw [hm] at h; exact ih hx m h
        · rw [hm] at h
          rcases ht : entry'.mtime with msg' | t
          · rw [ht] at h; simp at h
          · rw [ht] at h; exact ih hx m h

theorem ageAdjust_fst (now ks : Int) (p : Generation × Bool) : (ageAdjust now ks p).1 = p.1 := by
  unfold ageAdjust
  split
  · rfl
  · split <;> rfl

theorem agePass_length (now ks : Int) (l : List (Generation × Bool)) :
    (agePass now ks l).length = l.length := by
  simp [agePass]

theorem countPass_length (k : Nat) (l : List (Generation × Bool)) :
    (countPass k l).length = l.length := by
  simp [countPass]

theorem agePass_getElem {now ks : Int} {l : List (Generation × Bool)} {i : Nat}
    (h : i < l.length) (hh : i < (agePass now ks l).length) :
    (agePass now ks l)[i] = ageAdjust now ks (l[i]) := by
  simp [agePass]

theorem countPass_getElem {k : Nat} {l : List (Generation × Bool)} {i : Nat}
    (h : i < l.length) (hh : i < (countPass k l).length) :
    (countPass k l)[i] = if l.length - k ≤ i then ((l[i]).1, false) else l[i] := by
  unfold countPass
  by_cases hij : i < l.length - k
  · rw [List.getElem_append_left (by simpa using hij)]
    rw [List.getElem_take]
    rw [if_neg (by omega)]
  · rw [List.getElem_append_right (by simp; omega)]
    simp only [List.getElem_map, List.getElem_drop, List.length_take]
    rw [if_pos (by omega)]
    have hidx : l.length - k + (i - min (l.length - k) l.length) = i := by omega
    simp only [hidx]

theorem plan_keys (now ks : Int) (k : Nat) (l : List (Generation × Bool)) :
    (countPass k (agePass now ks l)).map (fun p => p.1) = l.map (fun p => p.1) := by
  simp only [countPass, List.map_append, List.map_map]
  have h1 : ((fun p : Generation × Bool => p.1) ∘ fun p : Generation × Bool => (p.1, false)) =
      (fun p : Generation × Bool => p.1) := rfl
  rw [h1, List.map_take, List.map_drop, List.take_append_drop]
  rw [agePass, List.map_map]
  exact List.map_congr_left (fun p _ => ageAdjust_fst now ks p)

theorem plan_fst {now ks : Int} {k : Nat} {l : List (Generation × Bool)} {i : Nat}
    (h : i < l.length) (hh : i < (countPass k (agePass now ks l)).length) :
    ((countPass k (agePass now ks l))[i]).1 = (l[i]).1 := by
  have hla : i < (agePass now ks l).length := by rw [agePass_length]; exact h
  rw [countPass_getElem hla hh, agePass_getElem h hla]
  split <;> simp [ageAdjust_fst]

theorem planFlag {now ks : Int} {k : Nat} {l : List (Generation × Bool)} {i : Nat}
    (h : i < l.length) (hh : i < (countPass k (agePass now ks l)).length)
    (htrue : (l[i]).2 = true) :
    ((countPass k (agePass now ks l))[i]).2 = false ↔
      (ageCond now ks ((l[i]).1) ∨ l.length - k ≤ i) := by
  have hla : i < (agePass now ks l).length := by rw [agePass_length]; exact h
  rw [countPass_getElem hla hh, agePass_length]
  by_cases hck : l.length - k ≤ i
  · rw [if_pos hck]; simp [hck]
  · rw [if_neg hck]
    rw [agePass_getElem h hla]
    unfold ageAdjust ageCond
    split
    · rw [htrue]
      constructor
      · intro hx; simp at hx
      · intro hx
        rcases hx with ⟨hx1, hx2⟩ | hx
        · omega
        · exact absurd hx hck
    · split
      · constructor
        · intro _
          exact Or.inl ⟨by omega, by omega⟩
        · intro _
          rfl
      · rw [htrue]
        constructor
        · intro hx; simp at hx
        · intro hx
          rcases hx with ⟨hx1, hx2⟩ | hx
          · omega
          · exact absurd hx hck

theorem cleanable_parts {pn : String} {dir : Except String (List (Except String DirEntryInfo))}
    {k ks : Nat} {now : Int} {m : List (Generation × Bool)}
    (hc : cleanable_generations pn dir k ks now = .ok m) :
    ∃ entries m0, dir = .ok entries ∧ discoverGens pn entries [] = .ok m0 ∧
      m = countPass k (agePass now (ks : Int) m0) := by
  rcases dir with e | entries
  · simp [cleanable_generations] at hc
  · rcases hd : discoverGens pn entries [] with e | m0
    · rw [cleanable_generations, hd] at hc
      simp at hc
    · rw [cleanable_generations, hd] at hc
      simp at hc
      exact ⟨entries, m0, rfl, hd, hc.symm⟩

theorem cleanable_char {pn : String} {dir : Except String (List (Except String DirEntryInfo))}
    {k ks : Nat} {now : Int} {m : List (Generation × Bool)}
    (hc : cleanable_generations pn dir k ks now = .ok m) :
    ∀ (i : Nat) (h : i < m.length),
      ((m[i]).2 = false ↔ (ageCond now (ks : Int) ((m[i]).1) ∨ m.length - k ≤ i)) := by
  rcases cleanable_parts hc with ⟨entries, m0, -, hd, hm⟩
  subst hm
  intro i hh
  have h0 : i < m0.length := by
    have := countPass_length k (agePass now (ks : Int) m0)
    have := agePass_length now (ks : Int) m0
    omega
  have htrue : (m0[i]).2 = true :=
    discoverGens_true (by intro p hp; cases hp) hd m0[i] (List.getElem_mem h0)
  have hfst := plan_fst h0 hh
  rw [hfst]
  have hlen : (countPass k (agePass now (ks : Int) m0)).length = m0.length := by
    have := countPass_length k (agePass now (ks : Int) m0)
    have := agePass_length now (ks : Int) m0
    omega
  rw [hlen]
  exact planFlag h0 hh htrue

theorem sorted_nodup_numbers {m : List (Generation × Bool)}
    (hs : m.Pairwise pairLt)
    (hnd : (m.map (fun p => p.1.number)).Nodup) :
    (m.map (fun p => p.1.number)).Pairwise (· < ·) := by
  have hnd' : m.Pairwise (fun p q : Generation × Bool => p.1.number ≠ q.1.number) :=
    (List.pairwise_map).mp hnd
  rw [List.pairwise_map]
  refine (hs.and hnd').imp ?_
  rintro a b ⟨h1, h2⟩
  have h1' : genLt a.1 b.1 := h1
  unfold genLt at h1'
  rcases h1' with h1' | ⟨h1', -⟩
  · exact h1'
  · exact absurd h1' h2

theorem numbers_map_eq {now ks : Int} {k : Nat} {l : List (Generation × Bool)} :
    (countPass k (agePass now ks l)).map (fun p => p.1.number) =
      l.map (fun p => p.1.number) := by
  have hcomp : (fun p : Generation × Bool => p.1.number) =
      (fun g : Generation => g.number) ∘ (fun p : Generation × Bool => p.1) := rfl
  rw [hcomp, ← List.map_map, ← List.map_map, plan_keys]

/-- Claim C1, amended. Count rule: for a profile whose discovered
generations carry the numbers 1..N (distinct), a policy `keep = k ≤ N`
with `keep_since = 0` keeps exactly the k highest-numbered generations
and flags all others for removal, PROVIDED no generation's modification
time equals `now` exactly: a generation whose age is exactly zero is
additionally kept by the age rule, since `0 ≤ keep_since` (see the
counterexample to the unamended claim). A generation in the final plan is
kept (flag false) iff its number exceeds N - k. -/
theorem C1_count_rule {pn : String} {dir : Except String (List (Except String DirEntryInfo))}
    {k N : Nat} {now : Int} {m : List (Generation × Bool)}
    (hc : cleanable_generations pn dir k 0 now = .ok m)
    (hperm : (m.map (fun p => p.1.number)).Perm (List.range' 1 N))
    (hk : k ≤ N)
    (hnotnow : ∀ p ∈ m, p.1.last_modified ≠ now) :
    ∀ (i : Nat) (h : i < m.length), ((m[i]).2 = false ↔ N - k < (m[i]).1.number) := by
  rcases cleanable_parts hc with ⟨entries, m0, -, hd, hm⟩
  subst hm
  have hs0 : m0.Pairwise pairLt := discoverGens_sorted List.Pairwise.nil hd
  have hmapeq :
      (countPass k (agePass now ((0 : Nat) : Int) m0)).map (fun p => p.1.number) =
        m0.map (fun p => p.1.number) := numbers_map_eq
  have hndr : (List.range' 1 N).Nodup :=
    (List.pairwise_lt_range' 1 N).imp (fun h => Nat.ne_of_lt h)
  have hnd : (m0.map (fun p => p.1.number)).Nodup := by
    rw [← hmapeq]
    exact (hperm.nodup_iff).mpr hndr
  have hperm' : (m0.map (fun p => p.1.number)).Perm (List.range' 1 N) := by
    rw [← hmapeq]; exact hperm
  have hsorted := sorted_nodup_numbers hs0 hnd
  haveI : IsAntisymm Nat (· < ·) := ⟨fun a b h1 h2 => by omega⟩
  have heq : m0.map (fun p => p.1.number) = List.range' 1 N :=
    List.eq_of_perm_of_sorted hperm' hsorted (List.pairwise_lt_range' 1 N)
  have hlen0 : m0.length = N := by
    have := congrArg List.length heq
    simpa using this
  intro i hh
  have h0 : i < m0.length := by
    have h1 := countPass_length k (agePass now ((0 : Nat) : Int) m0)
    have h2 := agePass_length now ((0 : Nat) : Int) m0
    omega
  have htrue : (m0[i]).2 = true :=
    discoverGens_true (by intro p hp; cases hp) hd m0[i] (List.getElem_mem h0)
  have hfst := plan_fst h0 hh
  have hnum : (m0[i]).1.number = 1 + i := by
    have hleni : i < (m0.map (fun p => p.1.number)).length := by simpa using h0
    have hx : (m0.map (fun p => p.1.number))[i] = (m0[i]).1.number := by
      simp
    have hy := List.getElem_of_eq heq hleni
    rw [List.getElem_range'_1 i (by simpa [hlen0] using h0)] at hy
    omega
  have hiff := planFlag h0 hh htrue
  rw [hfst]
  rw [hiff]
  have hnolm : (m0[i]).1.last_modified ≠ now := by
    have hmem : (countPass k (agePass now ((0 : Nat) : Int) m0))[i] ∈
        countPass k (agePass now ((0 : Nat) : Int) m0) := List.getElem_mem hh
    have := hnotnow _ hmem
    rw [hfst] at this
    exact this
  constructor
  · intro hx
    rcases hx with ⟨hx1, hx2⟩ | hx
    · exact absurd (by omega : (m0[i]).1.last_modified = now) hnolm
    · omega
  · intro hx
    right
    omega

/-- Claim C1, counterexample to the unamended statement: a profile with
generations numbered 1 and 2, `keep = 1 ≤ 2`, `keep_since = 0`, where
generation 1 was modified exactly at `now`: the plan keeps BOTH
generations (generation 1 via the age rule, age 0 ≤ 0), not only the 1
highest-numbered one as the claim demands. -/
theorem C1_counterexample :
    cleanable_generations "p"
      (.ok [.ok ⟨"p-1-link", .ok 100⟩, .ok ⟨"p-2-link", .ok 50⟩]) 1 0 100 =
      .ok [(⟨1, 100, "p-1-link"⟩, false), (⟨2, 50, "p-2-link"⟩, false)] ∧
    (1 : Nat) ≤ 2 - 1 := by
  constructor
  · decide
  · decide

/-- Witness for the amended count rule at a concrete three-generation
profile with keep = 1. -/
theorem C1_count_rule_witness :
    cleanable_generations "p"
      (.ok [.ok ⟨"p-1-link", .ok 0⟩, .ok ⟨"p-3-link", .ok 80⟩, .ok ⟨"p-2-link", .ok 50⟩])
      1 0 100 =
      .ok [(⟨1, 0, "p-1-link"⟩, true), (⟨2, 50, "p-2-link"⟩, true),
           (⟨3, 80, "p-3-link"⟩, false)] ∧
    (([(⟨1, 0, "p-1-link"⟩, true), (⟨2, 50, "p-2-link"⟩, true),
       (⟨3, 80, "p-3-link"⟩, false)] : List (Generation × Bool))[2].2 = false ↔ 3 - 1 < 3) :=
  ⟨by decide,
   @C1_count_rule "p"
     (.ok [.ok ⟨"p-1-link", .ok 0⟩, .ok ⟨"p-3-link", .ok 80⟩, .ok ⟨"p-2-link", .ok 50⟩])
     1 3 100
     [(⟨1, 0, "p-1-link"⟩, true), (⟨2, 50, "p-2-link"⟩, true), (⟨3, 80, "p-3-link"⟩, false)]
     (by decide) (by decide) (by decide) (by decide) 2 (by decide)⟩

/-- Claim C2 (confirmed). Age rule: every generation recorded in the plan
whose age `now - last_modified` is non-negative and at most `keep_since`
has its remove flag cleared: it is kept regardless of the keep count. -/
theorem C2_age_rule {pn : String} {dir : Except String (List (Except String DirEntryInfo))}
    {k ks : Nat} {now : Int} {m : List (Generation × Bool)} {g : Generation} {b : Bool}
    (hc : cleanable_generations pn dir k ks now = .ok m)
    (hmem : (g, b) ∈ m)
    (hage : ageCond now (ks : Int) g) : b = false := by
  rcases List.getElem_of_mem hmem with ⟨i, hi, hEq⟩
  have hiff := cleanable_char hc i hi
  rw [hEq] at hiff
  exact hiff.mpr (Or.inl hage)

/-- Witness for the age rule at a concrete profile with keep = 0 and a
fresh generation. -/
theorem C2_age_rule_witness :
    cleanable_generations "p"
      (.ok [.ok ⟨"p-1-link", .ok 0⟩, .ok ⟨"p-2-link", .ok 95⟩]) 0 10 100 =
      .ok [(⟨1, 0, "p-1-link"⟩, true), (⟨2, 95, "p-2-link"⟩, false)] ∧
    (⟨2, 95, "p-2-link"⟩, false) ∈
      ([(⟨1, 0, "p-1-link"⟩, true), (⟨2, 95, "p-2-link"⟩, false)] : List (Generation × Bool)) ∧
    ageCond 100 ((10 : Nat) : Int) ⟨2, 95, "p-2-link"⟩ ∧
    (false : Bool) = false :=
  ⟨by decide, by decide, by decide,
   @C2_age_rule "p" (.ok [.ok ⟨"p-1-link", .ok 0⟩, .ok ⟨"p-2-link", .ok 95⟩]) 0 10 100
     [(⟨1, 0, "p-1-link"⟩, true), (⟨2, 95, "p-2-link"⟩, false)]
     ⟨2, 95, "p-2-link"⟩ false (by decide) (by decide) (by decide)⟩

/-- Claim C3 (confirmed). Union invariant of the generation plan: every
discovered generation starts with remove flag true; the two retention
passes only ever clear flags (a generation tagged keep is never re-tagged
remove); and, in the final plan, a generation is kept iff the age rule's
condition holds for it or it lies among the `keep` last (highest-key)
entries. In particular a generation whose modification time lies in the
future fails the age condition and stays flagged unless the count rule
saves it. -/
theorem C3_union_invariant :
    (∀ (pn : String) (es : List (Except String DirEntryInfo)) (m0 : List (Generation × Bool)),
        discoverGens pn es [] = .ok m0 → ∀ p ∈ m0, p.2 = true) ∧
    (∀ (now ks : Int) (k : Nat) (l : List (Generation × Bool)),
        ∀ p ∈ countPass k (agePass now ks l), p.2 = true → ∃ q ∈ l, q.1 = p.1 ∧ q.2 = true) ∧
    (∀ (pn : String) (dir : Except String (List (Except String DirEntryInfo)))
        (k ks : Nat) (now : Int) (m : List (Generation × Bool)),
        cleanable_generations pn dir k ks now = .ok m →
        ∀ (i : Nat) (h : i < m.length),
          ((m[i]).2 = false ↔ (ageCond now (ks : Int) ((m[i]).1) ∨ m.length - k ≤ i))) := by
  refine ⟨?_, ?_, ?_⟩
  · intro pn es m0 hd
    exact discoverGens_true (by intro p hp; cases hp) hd
  · intro now ks k l p hp htrue
    rcases List.getElem_of_mem hp with ⟨i, hi, hEq⟩
    have hl : i < l.length := by
      have h1 := countPass_length k (agePass now ks l)
      have h2 := agePass_length now ks l
      omega
    have hla : i < (agePass now ks l).length := by rw [agePass_length]; exact hl
    refine ⟨l[i], List.getElem_mem hl, ?_, ?_⟩
    · rw [← hEq, plan_fst hl hi]
    · have hcp := countPass_getElem hla hi
      rw [hEq] at hcp
      by_cases hck : (agePass now ks l).length - k ≤ i
      · rw [if_pos hck] at hcp
        rw [hcp] at htrue
        simp at htrue
      · rw [if_neg hck] at hcp
        rw [agePass_getElem hl hla] at hcp
        unfold ageAdjust at hcp
        split at hcp
        · rw [← hcp]; exact htrue
        · split at hcp
          · rw [hcp] at htrue
            simp at htrue
          · rw [← hcp]; exact htrue
  · intro pn dir k ks now m hc i h
    exact cleanable_char hc i h

/-- Witness for the union invariant at a concrete three-generation
profile. -/
theorem C3_union_invariant_witness :
    (([(⟨1, 0, "p-1-link"⟩, true), (⟨2, 50, "p-2-link"⟩, true),
       (⟨3, 80, "p-3-link"⟩, false)] : List (Generation × Bool))[2].2 = false ↔
      (ageCond 100 ((0 : Nat) : Int)
        (([(⟨1, 0, "p-1-link"⟩, true), (⟨2, 50, "p-2-link"⟩, true),
           (⟨3, 80, "p-3-link"⟩, false)] : List (Generation × Bool))[2].1) ∨ 3 - 1 ≤ 2)) :=
  C3_union_invariant.2.2 "p"
    (.ok [.ok ⟨"p-1-link", .ok 0⟩, .ok ⟨"p-3-link", .ok 80⟩, .ok ⟨"p-2-link", .ok 50⟩])
    1 0 100 _ (by decide) 2 (by decide)

/-- Claim C7, counterexample to the original statement: a single matching
entry whose modification time cannot be read makes `cleanable_generations`
return the error (the `?` operator propagates it), instead of skipping
the entry with a warning as the claim states; the run is thus fatal in a
case where the parent directory itself was perfectly readable. -/
theorem C7_counterexample :
    cleanable_generations "p" (.ok [.ok ⟨"p-1-link", .error "io"⟩]) 1 0 100 =
      .error "io" := by
  decide

/-- Claim C7, amended. During generation enumeration: an entry whose name
fails to match the generation pattern is silently skipped and never
receives a plan record, and an unreadable parent directory is fatal; but,
contrary to the original claim, a per-entry read failure and a failure to
read a matching entry's modification time are ALSO fatal for the run (the
loop propagates them with `?`), not skip-and-continue. -/
theorem C7_enumeration_errors :
    (∀ (pn e : String) (k ks : Nat) (now : Int),
        cleanable_generations pn (.error e) k ks now = .error e) ∧
    (∀ (pn : String) (es : List (Except String DirEntryInfo)) (k ks : Nat) (now : Int)
        (m : List (Generation × Bool)) (p : Generation × Bool),
        cleanable_generations pn (.ok es) k ks now = .ok m → p ∈ m →
        ∃ e t, Except.ok e ∈ es ∧ matchGenName pn e.name = some p.1.number ∧
          e.mtime = Except.ok t) ∧
    (∀ (pn : String) (es : List (Except String DirEntryInfo)) (k ks : Nat) (now : Int)
        (msg : String), Except.error msg ∈ es →
        ∀ m, cleanable_generations pn (.ok es) k ks now ≠ .ok m) ∧
    (∀ (pn : String) (es : List (Except String DirEntryInfo)) (k ks : Nat) (now : Int)
        (e : DirEntryInfo) (n : Nat) (msg : String),
        Except.ok e ∈ es → matchGenName pn e.name = some n → e.mtime = .error msg →
        ∀ m, cleanable_generations pn (.ok es) k ks now ≠ .ok m) := by
  refine ⟨?_, ?_, ?_, ?_⟩
  · intro pn e k ks now
    simp [cleanable_generations]
  · intro pn es k ks now m p hc hp
    rcases cleanable_parts hc with ⟨entries, m0, heq, hd, hm⟩
    have hes : entries = es := by
      injection heq with h
      exact h.symm
    subst hes hm
    rcases List.getElem_of_mem hp with ⟨i, hi, hEq⟩
    have h0 : i < m0.length := by
      have h1 := countPass_length k (agePass now (ks : Int) m0)
      have h2 := agePass_length now (ks : Int) m0
      omega
    have hkey : p.1 = (m0[i]).1 := by
      rw [← hEq, plan_fst h0 hi]
    rcases discoverGens_mem_source hd (List.getElem_mem h0) with hemp | ⟨e, t, he, h1, h2, h3, h4⟩
    · cases hemp
    · exact ⟨e, t, he, by rw [hkey]; exact h1, h2⟩
  · intro pn es k ks now msg hmem m hc
    rcases cleanable_parts hc with ⟨entries, m0, heq, hd, -⟩
    have hes : entries = es := by
      injection heq with h
      exact h.symm
    subst hes
    exact discoverGens_entry_error hmem m0 hd
  · intro pn es k ks now e n msg hmem hmn hmt m hc
    rcases cleanable_parts hc with ⟨entries, m0, heq, hd, -⟩
    have hes : entries = es := by
      injection heq with h
      exact h.symm
    subst hes
    exact discoverGens_mtime_error hmem hmn hmt m0 hd

/-- Witness for the amended enumeration-error behavior: an unreadable
entry makes the planner fail. -/
theorem C7_enumeration_errors_witness :
    cleanable_generations "p" (.ok [.error "io"]) 1 0 100 ≠
      .ok ([] : List (Generation × Bool)) :=
  C7_enumeration_errors.2.2.1 "p" [.error "io"] 1 0 100 "io" (by decide) []

theorem exbind_ok {α β : Type} (a : α) (f : α → Except String β) :
    (Except.ok a : Except String α).bind f = f a := rfl

theorem exbind_err {α β : Type} (e : String) (f : α → Except String β) :
    (Except.error e : Except String α).bind f = (.error e : Except String β) := rfl

theorem hmFind_insert (k : String) (v : Bool) (l : List (String × Bool)) (t : String) :
    hmFind t (hmInsert k v l) = if t = k then some v else hmFind t l := by
  induction l with
  | nil =>
    simp only [hmInsert, hmFind]
    by_cases h : t = k
    · rw [if_pos h, if_pos h.symm]
    · rw [if_neg h, if_neg (fun hx => h hx.symm)]
  | cons p rest ih =>
    by_cases hpk : p.1 = k
    · rw [hmInsert, if_pos hpk]
      simp only [hmFind]
      by_cases htk : t = k
      · rw [if_pos htk, if_pos htk.symm]
      · rw [if_neg htk, if_neg (fun hx : k = t => htk hx.symm),
          if_neg (fun hx : p.1 = t => htk (hx.symm.trans hpk))]
    · rw [hmInsert, if_neg hpk]
      simp only [hmFind]
      by_cases hpt : p.1 = t
      · rw [if_pos hpt, if_neg (fun hx : t = k => hpk (hpt.trans hx)), if_pos hpt]
      · rw [if_neg hpt, ih]
        by_cases htk : t = k
        · rw [if_pos htk, if_pos htk]
        · rw [if_neg htk, if_neg htk, if_neg hpt]

/-- Case analysis of one scan step: either the candidate passes all
filters and is inserted with its age tag; or it is silently dropped; or
the step is fatal (probe errno other than EACCES/ENOENT, or unreadable
metadata, both only reached on an allow-list match). -/
theorem gcStep_cases (now ks : Int) (c : GcRootCandidate) (acc : List (String × Bool)) :
    (∃ t, c.mtime = Except.ok t ∧ gcPasses now c ∧
        gcStep now ks c acc =
          .ok (hmInsert c.dst (if now - t ≤ ks then false else true) acc)) ∨
    (¬gcPasses now c ∧ gcStep now ks c acc = .ok acc) ∨
    (¬gcPasses now c ∧ ∃ msg, gcStep now ks c acc = .error msg) := by
  unfold gcStep
  by_cases hm : matchesGcrootPattern c.dst = false
  · rw [if_pos hm]
    refine .inr (.inl ⟨?_, rfl⟩)
    intro hpass
    rw [hpass.1] at hm
    cases hm
  · rw [if_neg hm]
    have hmt : matchesGcrootPattern c.dst = true := by simpa using hm
    rcases hpr : c.probe with - | - | msg
    · rcases hmtm : c.mtime with msg | tm
      · simp only []
        refine .inr (.inr ⟨?_, msg, by first | rfl | trivial⟩)
        rintro ⟨-, -, t, ht, -⟩
        rw [hmtm] at ht
        cases ht
      · simp only []
        by_cases hfut : now - tm < 0
        · rw [if_pos hfut]
          refine .inr (.inl ⟨?_, by first | rfl | trivial⟩)
          rintro ⟨-, -, t, ht, hage⟩
          rw [hmtm] at ht
          injection ht with ht2
          omega
        · rw [if_neg hfut]
          refine .inl ⟨tm, by first | rfl | trivial, ⟨hmt, hpr, tm, hmtm, by omega⟩, ?_⟩
          by_cases hks : now - tm ≤ ks
          · rw [if_pos hks, if_pos hks]
          · rw [if_neg hks, if_neg hks]
    · simp only []
      refine .inr (.inl ⟨?_, by first | rfl | trivial⟩)
      rintro ⟨-, hp, -⟩
      rw [hpr] at hp
      cases hp
    · simp only []
      refine .inr (.inr ⟨?_, msg, by first | rfl | trivial⟩)
      rintro ⟨-, hp, -⟩
      rw [hpr] at hp
      cases hp

theorem scanGcroots_find {now ks : Int} {entries : List (Except String GcRootCandidate)}
    {acc plan : List (String × Bool)}
    (h : scanGcroots now ks entries acc = .ok plan) (t : String) :
    (hmFind t plan).isSome ↔
      ((hmFind t acc).isSome ∨ ∃ c, Except.ok c ∈ entries ∧ c.dst = t ∧ gcPasses now c) := by
  induction entries generalizing acc with
  | nil =>
    obtain rfl : acc = plan := by simpa [scanGcroots] using h
    simp
  | cons e rest ih =>
    match e with
    | .error msg => simp [scanGcroots] at h
    | .ok c =>
      rw [scanGcroots] at h
      rcases gcStep_cases now ks c acc with ⟨tm, hmtm, hpass, hstep⟩ | ⟨hnp, hstep⟩ |
        ⟨hnp, msg, hstep⟩
      · rw [hstep, exbind_ok] at h
        rw [ih h]
        rw [hmFind_insert]
        by_cases htc : t = c.dst
        · rw [if_pos htc]
          constructor
          · intro _
            exact .inr ⟨c, List.mem_cons_self _ _, htc.symm, hpass⟩
          · intro _
            simp
        · rw [if_neg htc]
          constructor
          · rintro (hx | ⟨c2, hc2, h1, h2⟩)
            · exact .inl hx
            · exact .inr ⟨c2, List.mem_cons_of_mem _ hc2, h1, h2⟩
          · rintro (hx | ⟨c2, hc2, h1, h2⟩)
            · exact .inl hx
            · rcases List.mem_cons.mp hc2 with hcc | hcc
              · injection hcc with hcc2
                subst hcc2
                exact absurd h1.symm htc
              · exact .inr ⟨c2, hcc, h1, h2⟩
      · rw [hstep, exbind_ok] at h
        rw [ih h]
        constructor
        · rintro (hx | ⟨c2, hc2, h1, h2⟩)
          · exact .inl hx
          · exact .inr ⟨c2, List.mem_cons_of_mem _ hc2, h1, h2⟩
        · rintro (hx | ⟨c2, hc2, h1, h2⟩)
          · exact .inl hx
          · rcases List.mem_cons.mp hc2 with hcc | hcc
            · injection hcc with hcc2
              subst hcc2
              exact absurd h2 hnp
            · exact .inr ⟨c2, hcc, h1, h2⟩
      · rw [hstep, exbind_err] at h
        cases h

theorem scanGcroots_otherErr {now ks : Int} {c : GcRootCandidate} {msg : String}
    (hmt : matchesGcrootPattern c.dst = true) (hpr : c.probe = .otherErr msg) :
    ∀ (entries : List (Except String GcRootCandidate)), Except.ok c ∈ entries →
      ∀ acc plan, scanGcroots now ks entries acc ≠ .ok plan := by
  intro entries
  induction entries with
  | nil =>
    intro hc
    simp at hc
  | cons e rest ih =>
    intro hc acc plan h
    match e with
    | .error m2 => simp [scanGcroots] at h
    | .ok c2 =>
      rw [scanGcroots] at h
      rcases List.mem_cons.mp hc with hcc | hcc
      · injection hcc with hcc2
        subst hcc2
        have hstep : gcStep now ks c acc = .error msg := by
          unfold gcStep
          rw [if_neg (by simp [hmt]), hpr]
        rw [hstep, exbind_err] at h
        cases h
      · rcases hst : gcStep now ks c2 acc with m | acc1
        · rw [hst, exbind_err] at h
          cases h
        · rw [hst, exbind_ok] at h
          exact ih hcc acc1 plan h

theorem scanGcroots_split {now ks : Int} {es1 es2 : List (Except String GcRootCandidate)}
    {acc plan : List (String × Bool)}
    (h : scanGcroots now ks (es1 ++ es2) acc = .ok plan) :
    ∃ acc2, scanGcroots now ks es1 acc = .ok acc2 ∧
      scanGcroots now ks es2 acc2 = .ok plan := by
  induction es1 generalizing acc with
  | nil => exact ⟨acc, rfl, by simpa using h⟩
  | cons e rest ih =>
    match e with
    | .error m => simp [scanGcroots] at h
    | .ok c =>
      rw [List.cons_append, scanGcroots] at h
      rcases hst : gcStep now ks c acc with m | acc1
      · rw [hst, exbind_err] at h
        cases h
      · rw [hst, exbind_ok] at h
        rcases ih h with ⟨acc2, h1, h2⟩
        refine ⟨acc2, ?_, h2⟩
        rw [scanGcroots, hst, exbind_ok]
        exact h1

theorem hmInsert_keys (k : String) (v : Bool) (l : List (String × Bool)) :
    (hmInsert k v l).map (fun p => p.1) =
      if k ∈ l.map (fun p => p.1) then l.map (fun p => p.1)
      else l.map (fun p => p.1) ++ [k] := by
  induction l with
  | nil => simp [hmInsert]
  | cons p rest ih =>
    by_cases hpk : p.1 = k
    · rw [hmInsert, if_pos hpk]
      rw [if_pos (by simp [hpk.symm])]
      simp [hpk]
    · rw [hmInsert, if_neg hpk]
      simp only [List.map_cons]
      rw [ih]
      by_cases hk : k ∈ rest.map (fun p => p.1)
      · rw [if_pos hk, if_pos (by simp [hk])]
      · rw [if_neg hk]
        rw [if_neg (by
          simp only [List.mem_cons]
          rintro (hx | hx)
          · exact hpk hx.symm
          · exact hk hx)]
        simp

theorem hmInsert_nodup {k : String} {v : Bool} {l : List (String × Bool)}
    (h : (l.map (fun p => p.1)).Nodup) :
    ((hmInsert k v l).map (fun p => p.1)).Nodup := by
  rw [hmInsert_keys]
  by_cases hk : k ∈ l.map (fun p => p.1)
  · rw [if_pos hk]
    exact h
  · rw [if_neg hk]
    simp [List.nodup_append, h, hk]

theorem scanGcroots_nodup {now ks : Int} :
    ∀ (entries : List (Except String GcRootCandidate)) (acc plan : List (String × Bool)),
      (acc.map (fun p => p.1)).Nodup → scanGcroots now ks entries acc = .ok plan →
      (plan.map (fun p => p.1)).Nodup := by
  intro entries
  induction entries with
  | nil =>
    intro acc plan hnd h
    obtain rfl : acc = plan := by simpa [scanGcroots] using h
    exact hnd
  | cons e rest ih =>
    intro acc plan hnd h
    match e with
    | .error m => simp [scanGcroots] at h
    | .ok c =>
      rw [scanGcroots] at h
      rcases gcStep_cases now ks c acc with ⟨tm, -, -, hstep⟩ | ⟨-, hstep⟩ | ⟨-, msg, hstep⟩
      · rw [hstep, exbind_ok] at h
        exact ih _ plan (hmInsert_nodup hnd) h
      · rw [hstep, exbind_ok] at h
        exact ih _ plan hnd h
      · rw [hstep, exbind_err] at h
        cases h

/-- Claim C4 (confirmed). GcRootPlan membership: when the scan completes,
a target appears in the plan iff some scanned candidate resolves to it,
matches the allow-list, passes the no-follow accessibility probe, and has
a computable (non-future) age; dropped candidates (probe denied/not
found, non-matching target, uncomputable age) leave no entry; and a probe
error other than not-found/permission-denied on an allow-listed candidate
makes the whole scan abort (it can never return a plan). -/
theorem C4_gcroot_plan_membership :
    (∀ (now ks : Int) (entries : List (Except String GcRootCandidate))
        (plan : List (String × Bool)),
        scanGcroots now ks entries [] = .ok plan →
        ∀ t : String, (hmFind t plan).isSome ↔
          ∃ c, Except.ok c ∈ entries ∧ c.dst = t ∧ gcPasses now c) ∧
    (∀ (now ks : Int) (entries : List (Except String GcRootCandidate))
        (c : GcRootCandidate) (msg : String),
        Except.ok c ∈ entries → matchesGcrootPattern c.dst = true →
        c.probe = ProbeResult.otherErr msg →
        ∀ acc plan, scanGcroots now ks entries acc ≠ .ok plan) := by
  constructor
  · intro now ks entries plan h t
    rw [scanGcroots_find h t]
    simp [hmFind]
  · intro now ks entries c msg hc hmt hpr acc plan
    exact scanGcroots_otherErr hmt hpr entries hc acc plan

/-- Witness for gcroot plan membership at a one-candidate registry. -/
theorem C4_gcroot_plan_membership_witness :
    scanGcroots 100 10 [.ok ⟨"/x/result-1", .ok, .ok 40⟩] [] =
      .ok [("/x/result-1", true)] ∧
    ((hmFind "/x/result-1" [("/x/result-1", true)]).isSome ↔
      ∃ c, Except.ok c ∈ ([.ok ⟨"/x/result-1", .ok, .ok 40⟩] :
          List (Except String GcRootCandidate)) ∧
        c.dst = "/x/result-1" ∧ gcPasses 100 c) :=
  ⟨by decide,
   C4_gcroot_plan_membership.1 100 10 [.ok ⟨"/x/result-1", .ok, .ok 40⟩]
     [("/x/result-1", true)] (by decide) "/x/result-1"⟩

theorem scanGcroots_preserve {now ks : Int} {es : List (Except String GcRootCandidate)}
    {acc plan : List (String × Bool)} {t : String}
    (h : scanGcroots now ks es acc = .ok plan)
    (hno : ∀ c2, Except.ok c2 ∈ es → c2.dst = t → ¬gcPasses now c2) :
    hmFind t plan = hmFind t acc := by
  induction es generalizing acc with
  | nil =>
    obtain rfl : acc = plan := by simpa [scanGcroots] using h
    rfl
  | cons e rest ih =>
    match e with
    | .error msg => simp [scanGcroots] at h
    | .ok c2 =>
      rw [scanGcroots] at h
      rcases gcStep_cases now ks c2 acc with ⟨tm2, hmtm2, hpass2, hstep⟩ | ⟨hnp, hstep⟩ |
        ⟨hnp, msg, hstep⟩
      · rw [hstep, exbind_ok] at h
        have hne : c2.dst ≠ t := by
          intro he
          exact hno c2 (List.mem_cons_self _ _) he hpass2
        have hrest := ih h (fun c3 hc3 => hno c3 (List.mem_cons_of_mem _ hc3))
        rw [hrest, hmFind_insert, if_neg (fun hx : t = c2.dst => hne hx.symm)]
      · rw [hstep, exbind_ok] at h
        exact ih h (fun c3 hc3 => hno c3 (List.mem_cons_of_mem _ hc3))
      · rw [hstep, exbind_err] at h
        cases h

/-- Claim C10 (confirmed). The gcroot plan is keyed by the resolved
target: its keys are pairwise distinct (a `HashMap`); in any scan, the
flag stored for a target is the one computed for the last-scanned
candidate that the scanner inserts under it — later registry entries,
whether candidates for other targets or same-target candidates that the
scanner drops (non-matching, probe-denied or future-dated), never change
it; and consequently the execution engine's gcroot deletion list
contains each target at most once. -/
theorem C10_gcroot_dedup :
    (∀ (now ks : Int) (entries : List (Except String GcRootCandidate))
        (plan : List (String × Bool)),
        scanGcroots now ks entries [] = .ok plan →
        (plan.map (fun p => p.1)).Nodup) ∧
    (∀ (now ks : Int) (es1 es2 : List (Except String GcRootCandidate))
        (c : GcRootCandidate) (tm : Int) (plan : List (String × Bool)),
        scanGcroots now ks (es1 ++ Except.ok c :: es2) [] = .ok plan →
        c.mtime = Except.ok tm → gcPasses now c →
        (∀ c2, Except.ok c2 ∈ es2 → c2.dst = c.dst → ¬gcPasses now c2) →
        hmFind c.dst plan = some (if now - tm ≤ ks then false else true)) ∧
    (∀ plan : List (String × Bool),
        (plan.map (fun p => p.1)).Nodup → (gcrootDeletions plan).Nodup) := by
  refine ⟨?_, ?_, ?_⟩
  · intro now ks entries plan h
    exact scanGcroots_nodup entries [] plan (by simp) h
  · intro now ks es1 es2 c tm plan h hmtm hpass hlast
    rcases scanGcroots_split h with ⟨acc2, h1, h2⟩
    rcases gcStep_cases now ks c acc2 with ⟨tm2, hmtm2, -, hstep⟩ | ⟨hnp, -⟩ | ⟨hnp, -, -⟩
    · rw [scanGcroots, hstep, exbind_ok] at h2
      have htm : tm2 = tm := by
        rw [hmtm] at hmtm2
        injection hmtm2 with h3
        exact h3.symm
      subst htm
      rw [scanGcroots_preserve h2 hlast, hmFind_insert, if_pos rfl]
    · exact absurd hpass hnp
    · exact absurd hpass hnp
  · intro plan hnd
    exact List.Nodup.sublist ((List.filter_sublist plan).map _) hnd

/-- Witness for gcroot deduplication: four registry entries, three of
them for the same target; the flag stored is the one of the second (the
last one inserted), unchanged by the later probe-denied duplicate and by
the later insertion under another target. -/
theorem C10_gcroot_dedup_witness :
    scanGcroots 100 10
      [.ok ⟨"/a/result", .ok, .ok 90⟩, .ok ⟨"/a/result", .ok, .ok 40⟩,
       .ok ⟨"/a/result", .denied, .ok 95⟩, .ok ⟨"/b/result", .ok, .ok 95⟩] [] =
      .ok [("/a/result", true), ("/b/result", false)] ∧
    hmFind "/a/result" [("/a/result", true), ("/b/result", false)] =
      some (if (100 : Int) - 40 ≤ 10 then false else true) :=
  ⟨by decide,
   C10_gcroot_dedup.2.1 100 10 [.ok ⟨"/a/result", .ok, .ok 90⟩]
     [.ok ⟨"/a/result", .denied, .ok 95⟩, .ok ⟨"/b/result", .ok, .ok 95⟩]
     ⟨"/a/result", .ok, .ok 40⟩ 40 [("/a/result", true), ("/b/result", false)]
     (by decide) (by decide) ⟨by decide, by decide, 40, by decide, by decide⟩
     (by
       rintro c2 hc2 hdst hpass
       rcases List.mem_cons.mp hc2 with hx | hx
       · injection hx with h2
         subst h2
         exact absurd hpass.2.1 (by decide)
       · rcases List.mem_cons.mp hx with hy | hy
         · injection hy with h2
           subst h2
           exact absurd hdst (by decide)
         · cases hy)⟩

theorem profilesGo_panic {entries : List (Except String ProfDirEntry)} {e : ProfDirEntry}
    (hmem : Except.ok e ∈ entries) (hdst : e.linkDst = some none) :
    profilesGo entries = none := by
  induction entries with
  | nil => simp at hmem
  | cons x rest ih =>
    match x with
    | .error m =>
      rw [profilesGo]
      rcases List.mem_cons.mp hmem with hc | hc
      · cases hc
      · exact ih hc
    | .ok e2 =>
      obtain ⟨nm, ld⟩ := e2
      rcases List.mem_cons.mp hmem with hc | hc
      · injection hc with hc2
        subst hc2
        simp only at hdst
        subst hdst
        rw [profilesGo]
      · rcases ld with - | od
        · rw [profilesGo]
          exact ih hc
        · rcases od with - | f
          · rw [profilesGo]
          · rw [profilesGo]
            rw [ih hc]
            split <;> rfl

theorem profilesGo_total {entries : List (Except String ProfDirEntry)}
    (h : ∀ e : ProfDirEntry, Except.ok e ∈ entries → e.linkDst ≠ some none) :
    ∃ l, profilesGo entries = some l := by
  induction entries with
  | nil => exact ⟨[], rfl⟩
  | cons x rest ih =>
    rcases ih (fun e he => h e (List.mem_cons_of_mem _ he)) with ⟨l, hl⟩
    match x with
    | .error m => exact ⟨l, by rw [profilesGo]; exact hl⟩
    | .ok e2 =>
      obtain ⟨nm, ld⟩ := e2
      rcases ld with - | od
      · exact ⟨l, by rw [profilesGo]; exact hl⟩
      · rcases od with - | f
        · exact absurd rfl (h ⟨nm, some none⟩ (List.mem_cons_self _ _))
        · by_cases hg : genLinkNameMatch f
          · exact ⟨nm :: l, by rw [profilesGo, if_pos hg, hl]; rfl⟩
          · exact ⟨l, by rw [profilesGo, if_neg hg]; exact hl⟩

/-- Claim C9 (confirmed). Profile discovery is not total: an entry that
is a readable symlink whose target path has no final file-name component
(target such as a root path or one ending in a parent-directory
component) makes `profiles_in_dir` panic on the `expect` over
`file_name()` — modelled as the result `none` — instead of being skipped;
whereas an unreadable directory yields the empty list with a warning, a
per-entry read failure is skipped, and when no entry has such a target
the function returns normally. -/
theorem C9_profiles_in_dir_panic :
    (∀ (entries : List (Except String ProfDirEntry)) (e : ProfDirEntry),
        Except.ok e ∈ entries → e.linkDst = some none →
        profiles_in_dir (.ok entries) = none) ∧
    (∀ msg : String, profiles_in_dir (.error msg) = some []) ∧
    (∀ (msg : String) (rest : List (Except String ProfDirEntry)),
        profiles_in_dir (.ok (.error msg :: rest)) = profiles_in_dir (.ok rest)) ∧
    (∀ entries : List (Except String ProfDirEntry),
        (∀ e : ProfDirEntry, Except.ok e ∈ entries → e.linkDst ≠ some none) →
        ∃ l, profiles_in_dir (.ok entries) = some l) := by
  refine ⟨?_, ?_, ?_, ?_⟩
  · intro entries e hmem hdst
    rw [profiles_in_dir]
    exact profilesGo_panic hmem hdst
  · intro msg
    rw [profiles_in_dir]
  · intro msg rest
    rw [profiles_in_dir, profiles_in_dir, profilesGo]
  · intro entries h
    rw [profiles_in_dir]
    exact profilesGo_total h

/-- Witness for the discovery panic on a symlink target without a
file-name component. -/
theorem C9_profiles_in_dir_panic_witness :
    Except.ok (⟨"/dir/e", some none⟩ : ProfDirEntry) ∈
      ([.ok ⟨"/dir/e", some none⟩] : List (Except String ProfDirEntry)) ∧
    (⟨"/dir/e", some none⟩ : ProfDirEntry).linkDst = some none ∧
    profiles_in_dir (.ok [.ok ⟨"/dir/e", some none⟩]) = none :=
  ⟨by decide, by decide,
   C9_profiles_in_dir_panic.1 [.ok ⟨"/dir/e", some none⟩] ⟨"/dir/e", some none⟩
     (by decide) (by decide)⟩

theorem executePhase_reject {opts : CleanOpts} {gt : List (String × Bool)}
    {pt : List (String × List (Generation × Bool))} {answer : Bool}
    {ff : String → Bool} {cok : Bool}
    (hask : opts.ask = true) (hans : answer = false) :
    executePhase opts gt pt answer ff cok =
      ([CleanAction.promptShown], .error "User rejected the cleanup plan") := by
  simp [executePhase, hask, hans]

theorem executePhase_prompt_mem {opts : CleanOpts} {gt : List (String × Bool)}
    {pt : List (String × List (Generation × Bool))} {answer : Bool}
    {ff : String → Bool} {cok : Bool} (hask : opts.ask = true) :
    CleanAction.promptShown ∈ (executePhase opts gt pt answer ff cok).1 := by
  cases answer <;> by_cases hnogc : opts.nogc <;> by_cases hcok : cok <;>
    by_cases hopt : opts.optimise <;> by_cases hdry : opts.dry <;>
      simp [executePhase, hask, hnogc, hcok, hopt, hdry]

theorem executePhase_no_prompt {opts : CleanOpts} {gt : List (String × Bool)}
    {pt : List (String × List (Generation × Bool))} {answer : Bool}
    {ff : String → Bool} {cok : Bool} (hask : opts.ask = false) :
    CleanAction.promptShown ∉ (executePhase opts gt pt answer ff cok).1 := by
  cases answer <;> by_cases hnogc : opts.nogc <;> by_cases hcok : cok <;>
    by_cases hopt : opts.optimise <;> by_cases hdry : opts.dry <;>
      simp [executePhase, hask, hnogc, hcok, hopt, hdry, remove_path_nofail]

theorem executePhase_dry_no_remove {opts : CleanOpts} {gt : List (String × Bool)}
    {pt : List (String × List (Generation × Bool))} {answer : Bool}
    {ff : String → Bool} {cok : Bool} (hdry : opts.dry = true) :
    ∀ (pth : String) (ok : Bool),
      CleanAction.removeAttempt pth ok ∉ (executePhase opts gt pt answer ff cok).1 := by
  intro pth ok
  cases answer <;> by_cases hask : opts.ask <;> by_cases hnogc : opts.nogc <;>
    by_cases hcok : cok <;> by_cases hopt : opts.optimise <;>
      simp [executePhase, hask, hnogc, hcok, hopt, hdry]

theorem executePhase_collector_dry {opts : CleanOpts} {gt : List (String × Bool)}
    {pt : List (String × List (Generation × Bool))} {answer : Bool}
    {ff : String → Bool} {cok : Bool} :
    ∀ (d : Bool) (mb : Option String),
      CleanAction.runCollector d mb ∈ (executePhase opts gt pt answer ff cok).1 →
      d = opts.dry ∧ mb = opts.maxBound := by
  intro d mb h
  cases answer <;> by_cases hask : opts.ask <;> by_cases hnogc : opts.nogc <;>
    by_cases hcok : cok <;> by_cases hopt : opts.optimise <;> by_cases hdry : opts.dry <;>
      simp [executePhase, hask, hnogc, hcok, hopt, hdry, remove_path_nofail] at h <;>
        simp [h.1, h.2, hdry]

theorem runClean_ok {opts : CleanOpts} {ipc : Bool}
    {pd : List (String × Except String (List (Except String DirEntryInfo)))}
    {ge : List (Except String GcRootCandidate)} {now : Int} {answer : Bool}
    {ff : String → Bool} {cok : Bool} {pt : List (String × List (Generation × Bool))}
    {gt : List (String × Bool)}
    (hpp : planProfiles opts.keep opts.keep_since now pd = .ok pt)
    (hsc : (if !ipc && !opts.nogcroots then
        scanGcroots now (opts.keep_since : Int) ge [] else .ok []) = .ok gt) :
    runClean opts ipc pd ge now answer ff cok =
      ⟨some ⟨gt, pt⟩, (executePhase opts gt pt answer ff cok).1,
        (executePhase opts gt pt answer ff cok).2⟩ := by
  unfold runClean
  rw [hpp, hsc]

theorem runClean_plan_some {opts : CleanOpts} {ipc : Bool}
    {pd : List (String × Except String (List (Except String DirEntryInfo)))}
    {ge : List (Except String GcRootCandidate)} {now : Int} {answer : Bool}
    {ff : String → Bool} {cok : Bool} {p : Plan}
    (hplan : (runClean opts ipc pd ge now answer ff cok).plan = some p) :
    ∃ pt gt, planProfiles opts.keep opts.keep_since now pd = .ok pt ∧
      (if !ipc && !opts.nogcroots then scanGcroots now (opts.keep_since : Int) ge []
        else .ok []) = .ok gt := by
  unfold runClean at hplan
  rcases hpp : planProfiles opts.keep opts.keep_since now pd with e | pt
  · rw [hpp] at hplan
    simp at hplan
  · rw [hpp] at hplan
    rcases hsc : (if !ipc && !opts.nogcroots then
        scanGcroots now (opts.keep_since : Int) ge [] else .ok []) with e | gt
    · rw [hsc] at hplan
      simp at hplan
    · exact ⟨pt, gt, rfl, rfl⟩

/-- Claim C5, counterexample to the original statement: with interactive
confirmation requested AND dry-run enabled, the prompt is still shown
(the code guards the prompt solely with `if args.ask`, not
`ask && !dry`), contradicting "shown iff interactive confirmation was
requested and the run is not a dry-run". -/
theorem C5_counterexample :
    (⟨1, 0, true, true, true, true, none, false⟩ : CleanOpts).ask = true ∧
    (⟨1, 0, true, true, true, true, none, false⟩ : CleanOpts).dry = true ∧
    CleanAction.promptShown ∈
      (runClean ⟨1, 0, true, true, true, true, none, false⟩ true [] [] 0 true
        (fun _ => false) true).trace := by
  refine ⟨rfl, rfl, ?_⟩
  decide

/-- Claim C5, amended. Confirmation gate: once planning succeeded, the
yes/no prompt (defaulting to no) is shown iff the caller requested
interactive confirmation — including on a dry-run; a negative answer is a
fatal abort: the trace holds nothing but the prompt (no gcroot or
generation deletion, no collector invocation) and the run's outcome is
the user-rejection error. -/
theorem C5_confirmation_gate {opts : CleanOpts} {ipc : Bool}
    {pd : List (String × Except String (List (Except String DirEntryInfo)))}
    {ge : List (Except String GcRootCandidate)} {now : Int} {answer : Bool}
    {ff : String → Bool} {cok : Bool} {p : Plan}
    (hplan : (runClean opts ipc pd ge now answer ff cok).plan = some p) :
    (CleanAction.promptShown ∈ (runClean opts ipc pd ge now answer ff cok).trace ↔
       opts.ask = true) ∧
    (opts.ask = true → answer = false →
       (runClean opts ipc pd ge now answer ff cok).trace = [CleanAction.promptShown] ∧
       (runClean opts ipc pd ge now answer ff cok).outcome =
         .error "User rejected the cleanup plan") := by
  rcases runClean_plan_some hplan with ⟨pt, gt, hpp, hsc⟩
  rw [runClean_ok hpp hsc] at hplan ⊢
  constructor
  · constructor
    · intro hmem
      by_cases hask : opts.ask = true
      · exact hask
      · exact absurd hmem (executePhase_no_prompt (by simpa using hask))
    · intro hask
      exact executePhase_prompt_mem hask
  · intro hask hans
    constructor
    · show (executePhase opts gt pt answer ff cok).1 = [CleanAction.promptShown]
      rw [executePhase_reject hask hans]
    · show (executePhase opts gt pt answer ff cok).2 =
        .error "User rejected the cleanup plan"
      rw [executePhase_reject hask hans]

/-- Witness for the confirmation gate with a declined prompt. -/
theorem C5_confirmation_gate_witness :
    (runClean ⟨1, 0, false, true, true, true, none, false⟩ true [] [] 0 false
        (fun _ => false) true).plan = some ⟨[], []⟩ ∧
    (runClean ⟨1, 0, false, true, true, true, none, false⟩ true [] [] 0 false
        (fun _ => false) true).trace = [CleanAction.promptShown] ∧
    (runClean ⟨1, 0, false, true, true, true, none, false⟩ true [] [] 0 false
        (fun _ => false) true).outcome = .error "User rejected the cleanup plan" :=
  ⟨by decide,
   ((@C5_confirmation_gate ⟨1, 0, false, true, true, true, none, false⟩ true [] [] 0 false
      (fun _ => false) true ⟨[], []⟩ (by decide)).2 rfl rfl).1,
   ((@C5_confirmation_gate ⟨1, 0, false, true, true, true, none, false⟩ true [] [] 0 false
      (fun _ => false) true ⟨[], []⟩ (by decide)).2 rfl rfl).2⟩

theorem runClean_planProfiles_err {opts : CleanOpts} {ipc : Bool}
    {pd : List (String × Except String (List (Except String DirEntryInfo)))}
    {ge : List (Except String GcRootCandidate)} {now : Int} {answer : Bool}
    {ff : String → Bool} {cok : Bool} {e : String}
    (hpp : planProfiles opts.keep opts.keep_since now pd = .error e) :
    runClean opts ipc pd ge now answer ff cok = ⟨none, [], .error e⟩ := by
  unfold runClean
  rw [hpp]

theorem runClean_scan_err {opts : CleanOpts} {ipc : Bool}
    {pd : List (String × Except String (List (Except String DirEntryInfo)))}
    {ge : List (Except String GcRootCandidate)} {now : Int} {answer : Bool}
    {ff : String → Bool} {cok : Bool} {pt : List (String × List (Generation × Bool))}
    {e : String}
    (hpp : planProfiles opts.keep opts.keep_since now pd = .ok pt)
    (hsc : (if !ipc && !opts.nogcroots then
        scanGcroots now (opts.keep_since : Int) ge [] else .ok []) = .error e) :
    runClean opts ipc pd ge now answer ff cok = ⟨none, [], .error e⟩ := by
  unfold runClean
  rw [hpp, hsc]

/-- Claim C6 (confirmed). Dry-run purity: a run with dry enabled computes
exactly the same plan as the equivalent run with dry disabled (planning
never consults the flag), performs no path deletion (the trace holds no
removal attempt), and any collector invocation it delegates to carries
the dry flag. -/
theorem C6_dry_run_purity (opts : CleanOpts) (ipc : Bool)
    (pd : List (String × Except String (List (Except String DirEntryInfo))))
    (ge : List (Except String GcRootCandidate)) (now : Int) (answer : Bool)
    (ff : String → Bool) (cok : Bool) :
    (runClean (setDry opts true) ipc pd ge now answer ff cok).plan =
      (runClean (setDry opts false) ipc pd ge now answer ff cok).plan ∧
    (∀ (pth : String) (ok : Bool),
      CleanAction.removeAttempt pth ok ∉
        (runClean (setDry opts true) ipc pd ge now answer ff cok).trace) ∧
    (∀ (d : Bool) (mb : Option String),
      CleanAction.runCollector d mb ∈
        (runClean (setDry opts true) ipc pd ge now answer ff cok).trace → d = true) := by
  rcases hpp : planProfiles opts.keep opts.keep_since now pd with e | pt
  · have e1 := @runClean_planProfiles_err (setDry opts true) ipc pd ge now answer ff cok e hpp
    have e2 := @runClean_planProfiles_err (setDry opts false) ipc pd ge now answer ff cok e hpp
    rw [e1, e2]
    exact ⟨rfl, ⟨fun pth ok => List.not_mem_nil _, fun d mb h => absurd h (List.not_mem_nil _)⟩⟩
  · rcases hsc : (if !ipc && !opts.nogcroots then
        scanGcroots now (opts.keep_since : Int) ge [] else .ok []) with e | gt
    · have e1 := @runClean_scan_err (setDry opts true) ipc pd ge now answer ff cok pt e hpp hsc
      have e2 := @runClean_scan_err (setDry opts false) ipc pd ge now answer ff cok pt e hpp hsc
      rw [e1, e2]
      exact ⟨rfl, ⟨fun pth ok => List.not_mem_nil _, fun d mb h => absurd h (List.not_mem_nil _)⟩⟩
    · have e1 := @runClean_ok (setDry opts true) ipc pd ge now answer ff cok pt gt hpp hsc
      have e2 := @runClean_ok (setDry opts false) ipc pd ge now answer ff cok pt gt hpp hsc
      rw [e1, e2]
      refine ⟨rfl, ?_, ?_⟩
      · intro pth ok
        exact executePhase_dry_no_remove rfl pth ok
      · intro d mb hmem
        exact (executePhase_collector_dry d mb hmem).1

/-- Witness for dry-run purity: a dry run whose trace is exactly one
collector invocation carrying the dry flag. -/
theorem C6_dry_run_purity_witness :
    (runClean (setDry ⟨1, 0, false, false, false, true, none, false⟩ true) true [] [] 0 true
        (fun _ => false) true).trace = [CleanAction.runCollector true none] ∧
    (true : Bool) = true :=
  ⟨by decide,
   (C6_dry_run_purity ⟨1, 0, false, false, false, true, none, false⟩ true [] [] 0 true
      (fun _ => false) true).2.2 true none (by decide)⟩

theorem filterMap_removeTarget (ff : String → Bool) (paths : List String) :
    (paths.map (remove_path_nofail ff)).filterMap removeTarget = paths := by
  induction paths with
  | nil => rfl
  | cons p rest ih => simp [remove_path_nofail, removeTarget, ih]

theorem filterMap_comp_removeTarget (ff : String → Bool) (paths : List String) :
    List.filterMap (removeTarget ∘ remove_path_nofail ff) paths = paths := by
  induction paths with
  | nil => rfl
  | cons p rest ih => simp [remove_path_nofail, removeTarget, ih, Function.comp]

/-- Claim C8 (confirmed; the collector's max-objects bound and the
store-compaction step are modelled from the spec, their run code being
declared in crates/nh-clean/src/args.rs but absent from src/clean.rs).
Once past the confirmation gate: unless suppressed by `nogc`, the
external store-collector is invoked carrying the dry flag and the
optional max bound; its failure is fatal for the whole run; the optional
store-compaction step runs afterward (never after a collector failure);
and every individual path deletion is best-effort — for EVERY failure
pattern `ff`, the sequence of attempted removals equals the full flagged
target list, so one failure never aborts the remaining deletions. -/
theorem C8_execution_collector {opts : CleanOpts} {gt : List (String × Bool)}
    {pt : List (String × List (Generation × Bool))} {answer : Bool}
    {ff : String → Bool} {cok : Bool}
    (hgate : (opts.ask && !answer) = false) :
    (opts.nogc = false →
      CleanAction.runCollector opts.dry opts.maxBound ∈
        (executePhase opts gt pt answer ff cok).1) ∧
    (opts.nogc = false → cok = false →
      (executePhase opts gt pt answer ff cok).2 =
        .error "Performing garbage collection on the nix store failed") ∧
    (opts.optimise = true → (opts.nogc = true ∨ cok = true) →
      CleanAction.runOptimise ∈ (executePhase opts gt pt answer ff cok).1) ∧
    (opts.dry = false →
      (executePhase opts gt pt answer ff cok).1.filterMap removeTarget =
        deletionTargets gt pt) := by
  have hcase : opts.ask = false ∨ (opts.ask = true ∧ answer = true) := by
    rcases Bool.eq_false_or_eq_true opts.ask with h | h
    · right
      refine ⟨h, ?_⟩
      rw [h] at hgate
      simpa using hgate
    · exact .inl h
  refine ⟨?_, ?_, ?_, ?_⟩
  · intro hnogc
    rcases hcase with hask | ⟨hask, hans⟩ <;> by_cases hcok : cok <;>
      by_cases hopt : opts.optimise <;> by_cases hdry : opts.dry <;>
        simp_all [executePhase]
  · intro hnogc hcok
    rcases hcase with hask | ⟨hask, hans⟩ <;>
      by_cases hopt : opts.optimise <;> by_cases hdry : opts.dry <;>
        simp_all [executePhase]
  · intro hopt hor
    rcases hcase with hask | ⟨hask, hans⟩ <;> rcases hor with hnogc | hcok <;>
      by_cases hcok2 : cok <;> by_cases hdry : opts.dry <;>
        by_cases hnogc2 : opts.nogc <;>
          simp_all [executePhase]
  · intro hdry
    rcases hcase with hask | ⟨hask, hans⟩ <;> by_cases hcok : cok <;>
      by_cases hopt : opts.optimise <;> by_cases hnogc : opts.nogc <;>
        simp_all [executePhase, List.filterMap_append, filterMap_removeTarget, removeTarget,
          filterMap_comp_removeTarget]

/-- Witness for the execution step: collector with max bound, compaction
afterward, and all deletions attempted although every removal fails. -/
theorem C8_execution_collector_witness :
    CleanAction.runCollector false (some "10") ∈
      (executePhase ⟨1, 0, false, false, false, false, some "10", true⟩
        [("/a/result", true)] [("prof", [(⟨1, 0, "p-1-link"⟩, true)])] true
        (fun _ => true) true).1 ∧
    CleanAction.runOptimise ∈
      (executePhase ⟨1, 0, false, false, false, false, some "10", true⟩
        [("/a/result", true)] [("prof", [(⟨1, 0, "p-1-link"⟩, true)])] true
        (fun _ => true) true).1 ∧
    (executePhase ⟨1, 0, false, false, false, false, some "10", true⟩
        [("/a/result", true)] [("prof", [(⟨1, 0, "p-1-link"⟩, true)])] true
        (fun _ => true) true).1.filterMap removeTarget =
      deletionTargets [("/a/result", true)] [("prof", [(⟨1, 0, "p-1-link"⟩, true)])] :=
  ⟨(@C8_execution_collector ⟨1, 0, false, false, false, false, some "10", true⟩
      [("/a/result", true)] [("prof", [(⟨1, 0, "p-1-link"⟩, true)])] true
      (fun _ => true) true (by decide)).1 rfl,
   (@C8_execution_collector ⟨1, 0, false, false, false, false, some "10", true⟩
      [("/a/result", true)] [("prof", [(⟨1, 0, "p-1-link"⟩, true)])] true
      (fun _ => true) true (by decide)).2.2.1 rfl (Or.inr rfl),
   (@C8_execution_collector ⟨1, 0, false, false, false, false, some "10", true⟩
      [("/a/result", true)] [("prof", [(⟨1, 0, "p-1-link"⟩, true)])] true
      (fun _ => true) true (by decide)).2.2.2 rfl⟩
